import Mathlib

/-!
Shallow embedding of the satisfactory_solver_2 core in Lean 4.

The embedding mirrors the Rust sources:
  - src/world.rs   : ids, Resource, Recipe, World, name lookups, load_world
  - src/builder.rs : Rule, Constraint, Problem, Problem::solve
  - src/factory.rs : Factory, NetResources, Factory::net_resources, load_factory

Numeric values (f64 in the source) are modelled as exact rationals; machine
integers do not occur.  The external LP backend (the minilp crate) is not part
of the repository, so the solve step is parametrised by the solver outcome:
either an assignment of values to the LP variables (indexed in creation
order) or one of the two failure signals Infeasible / Unbounded.  Everything
the repository itself does - building the variable list, the constraint list,
translating the failure signals to strings and extracting the Factory from an
assignment - is embedded as executable definitions below.
-/

namespace Satisfactory

/-- Mirror of ResourceId in src/world.rs: an index into World.resources. -/
structure ResourceId where
  id : Nat
deriving DecidableEq, Repr

/-- Mirror of RecipeId in src/world.rs: an index into World.recipes. -/
structure RecipeId where
  id : Nat
deriving DecidableEq, Repr

/-- Mirror of VariableId in src/world.rs. -/
inductive VariableId where
  | Resource (id : ResourceId)
  | Recipe (id : RecipeId)
deriving DecidableEq, Repr

/-- Mirror of Resource in src/world.rs. -/
structure Resource where
  name : String
deriving DecidableEq, Repr

/-- Mirror of Recipe in src/world.rs; rates are (resource, rate) pairs. -/
structure Recipe where
  name : String
  tags : List String
  rates : List (ResourceId × ℚ)
deriving DecidableEq, Repr

/-- Mirror of World in src/world.rs. -/
structure World where
  resources : List Resource
  recipes : List Recipe
deriving DecidableEq, Repr

def ResourceId.variable_id (r : ResourceId) : VariableId := .Resource r

def RecipeId.variable_id (r : RecipeId) : VariableId := .Recipe r

/-- Mirror of World::resource_id_of_name: position of the first resource with
the given name (a linear scan, first match wins). -/
def World.resource_id_of_name (world : World) (resource_name : String) : Option ResourceId :=
  (world.resources.findIdx? (fun r => r.name == resource_name)).map ResourceId.mk

/-- Mirror of World::recipe_id_of_name: position of the first recipe with the
given name. -/
def World.recipe_id_of_name (world : World) (recipe_name : String) : Option RecipeId :=
  (world.recipes.findIdx? (fun r => r.name == recipe_name)).map RecipeId.mk

/-- Mirror of Constraint in src/builder.rs. -/
inductive Constraint where
  | Less (threshold : ℚ)
  | Equal (threshold : ℚ)
  | Greater (threshold : ℚ)
  | Unconstrained
deriving DecidableEq, Repr

/-- Mirror of Rule in src/builder.rs (the source field `variable` is a
reserved word in Lean, hence `var`). -/
structure Rule where
  var : VariableId
  constraint : Constraint
deriving DecidableEq, Repr

/-- Mirror of Problem in src/builder.rs. -/
structure Problem where
  rules : List Rule
  optimizations : List (VariableId × ℚ)
deriving DecidableEq, Repr

/-- Mirror of Factory in src/factory.rs. -/
structure Factory where
  recipes : List (RecipeId × ℚ)
deriving DecidableEq, Repr

/-- Mirror of NetResources in src/factory.rs. -/
structure NetResources where
  resources : List (ℚ × List (RecipeId × ℚ))
deriving DecidableEq, Repr

/-! ### The linear program handed to the minilp backend

minilp variables are handles numbered in creation order; Problem::solve
creates the resource variables first (handles 0, 1, ...) and then the recipe
variables, so a variable handle is modelled as a plain Nat index. -/

/-- Mirror of minilp::ComparisonOp as used by the builder. -/
inductive ComparisonOp where
  | Le
  | Eq
  | Ge
deriving DecidableEq, Repr

/-- One linear constraint handed to the backend: a linear form over variable
handles, a comparison operator and a right hand side. -/
structure LinearConstraint where
  lhs : List (Nat × ℚ)
  op : ComparisonOp
  rhs : ℚ
deriving DecidableEq, Repr

/-- Variable bounds as given to minilp's add_var; none stands for an
infinite end of the range. -/
structure VarBounds where
  min : Option ℚ
  max : Option ℚ
deriving DecidableEq, Repr

/-- The bound pair (f64 NEG_INFINITY, f64 INFINITY) used by the builder. -/
def unboundedRange : VarBounds := ⟨none, none⟩

/-- The record of everything Problem::solve feeds into the minilp problem:
per variable its objective coefficient and bounds (in creation order) and the
constraint list (in creation order).  The direction is always Maximize. -/
structure LinearProgram where
  vars : List (ℚ × VarBounds)
  constraints : List LinearConstraint
deriving DecidableEq, Repr

/-- The LP variable handle of a VariableId: resources come first, recipes
after all resources, exactly as Problem::solve creates them. -/
def World.varIndex (world : World) : VariableId → Nat
  | .Resource rid => rid.id
  | .Recipe rid => world.resources.length + rid.id

/-- Mirror of the objective-coefficient setup in Problem::solve (builder.rs
lines 154-164): two zero-filled vectors, one entry per resource and per
recipe, written at the index named by each optimization pair. -/
def Problem.objectiveCoefficients (problem : Problem) (world : World) : List ℚ × List ℚ :=
  problem.optimizations.foldl
    (fun coeffs x =>
      match x.1 with
      | .Resource rid => (coeffs.1.set rid.id x.2, coeffs.2)
      | .Recipe rid => (coeffs.1, coeffs.2.set rid.id x.2))
    (List.replicate world.resources.length 0, List.replicate world.recipes.length 0)

/-- Mirror of resource_recipe_coefficients in Problem::solve (builder.rs
lines 182-190): one bucket per resource; walking the recipes in order, each
(resource, rate) entry pushes (recipe variable handle, rate) onto the bucket
of that resource. -/
def World.resourceRecipeCoefficients (world : World) : List (List (Nat × ℚ)) :=
  world.recipes.enum.foldl
    (fun buckets x =>
      x.2.rates.foldl
        (fun buckets y =>
          buckets.modify (fun bucket => bucket ++ [(world.resources.length + x.1, y.2)]) y.1.id)
        buckets)
    (List.replicate world.resources.length [])

/-- Mirror of resource_default in Problem::solve (builder.rs lines 209-215):
one flag per resource, initially true, cleared by any rule naming that
resource (with any Constraint variant, Unconstrained included). -/
def Problem.resourceDefaults (problem : Problem) (world : World) : List Bool :=
  problem.rules.foldl
    (fun flags rule =>
      match rule.var with
      | .Resource rid => flags.set rid.id false
      | .Recipe _ => flags)
    (List.replicate world.resources.length true)

/-- Mirror of the per-rule constraint emission in Problem::solve (builder.rs
lines 217-229): Less/Equal/Greater become one comparison constraint on the
named variable, Unconstrained emits nothing. -/
def ruleConstraint (world : World) (rule : Rule) : Option LinearConstraint :=
  match rule.constraint with
  | .Less rate => some ⟨[(world.varIndex rule.var, 1)], .Le, rate⟩
  | .Equal rate => some ⟨[(world.varIndex rule.var, 1)], .Eq, rate⟩
  | .Greater rate => some ⟨[(world.varIndex rule.var, 1)], .Ge, rate⟩
  | .Unconstrained => none

/-- The linear program built by Problem::solve before it calls the backend
(builder.rs lines 150-239).  Variables: every resource then every recipe,
each with range (NEG_INFINITY, INFINITY).  Constraints in emission order:
the per-resource conservation equalities, the per-recipe lower bounds, the
user rules, and the default balance equalities for every resource whose
default flag survived the rule pass. -/
def Problem.buildLp (problem : Problem) (world : World) : LinearProgram :=
  { vars :=
      (problem.objectiveCoefficients world).1.map (fun c => (c, unboundedRange)) ++
        (problem.objectiveCoefficients world).2.map (fun c => (c, unboundedRange)),
    constraints :=
      world.resourceRecipeCoefficients.enum.map
        (fun x => ⟨x.2 ++ [(x.1, -1)], .Eq, 0⟩) ++
      (List.range world.recipes.length).map
        (fun j => ⟨[(world.resources.length + j, 1)], .Ge, 0⟩) ++
      problem.rules.filterMap (ruleConstraint world) ++
      (problem.resourceDefaults world).enum.filterMap
        (fun x => if x.2 then some ⟨[(x.1, 1)], .Eq, 0⟩ else none) }

/-! ### The solve step and extraction -/

/-- Mirror of minilp::Error. -/
inductive LpError where
  | Infeasible
  | Unbounded
deriving DecidableEq, Repr

/-- Mirror of SOLUTION_ROUND_PRECISION in src/builder.rs. -/
def SOLUTION_ROUND_PRECISION : ℚ := 1000000

/-- Rust f64::round: nearest integer, ties rounded away from zero. -/
def roundHalfAwayFromZero (x : ℚ) : ℤ :=
  if x < 0 then -⌊-x + 1 / 2⌋ else ⌊x + 1 / 2⌋

/-- f64::EPSILON, the machine epsilon of binary64, as an exact rational. -/
def f64Epsilon : ℚ := 1 / 2 ^ 52

/-- The per-recipe rounding in Problem::solve (builder.rs line 258):
(rate * SOLUTION_ROUND_PRECISION).round() / SOLUTION_ROUND_PRECISION. -/
def roundedRate (x : ℚ) : ℚ :=
  (roundHalfAwayFromZero (x * SOLUTION_ROUND_PRECISION) : ℚ) / SOLUTION_ROUND_PRECISION

/-- Mirror of the Factory extraction loop in Problem::solve (builder.rs lines
253-265): for each recipe variable in order, read its value from the
assignment, round, and keep the entry unless the magnitude is below
f64::EPSILON. -/
def World.extractFactory (world : World) (assignment : Nat → ℚ) : Factory :=
  ⟨(List.range world.recipes.length).filterMap (fun index =>
      if |roundedRate (assignment (world.resources.length + index))| < f64Epsilon then none
      else some (RecipeId.mk index, roundedRate (assignment (world.resources.length + index))))⟩

/-- Mirror of the tail of Problem::solve (builder.rs lines 241-267), with the
delegated backend call represented by its outcome: minilp either returns an
assignment of values to the variable handles of the LP built above, or fails
with Infeasible / Unbounded, which solve maps to the two error strings. -/
def Problem.solveWith (problem : Problem) (world : World)
    (outcome : Except LpError (Nat → ℚ)) : Except String Factory :=
  match outcome with
  | .error .Infeasible => .error "Infeasible"
  | .error .Unbounded => .error "Unbounded"
  | .ok assignment => .ok (world.extractFactory assignment)

/-! ### Well-formedness

Problem::solve indexes the coefficient vectors and the variable vectors with
the raw ids found in the Problem and the World; a Rust index out of range is
a panic (the spec calls such ids a fatal programmer error), so the theorems
about the builder assume all ids are in range. -/

/-- An id is in range of the world that produced it. -/
def VariableId.inRange (world : World) : VariableId → Prop
  | .Resource rid => rid.id < world.resources.length
  | .Recipe rid => rid.id < world.recipes.length

instance (world : World) : (v : VariableId) → Decidable (v.inRange world)
  | .Resource rid => inferInstanceAs (Decidable (rid.id < world.resources.length))
  | .Recipe rid => inferInstanceAs (Decidable (rid.id < world.recipes.length))

/-- Every rate entry of every recipe names an existing resource (the World
construction invariant enforced by load_world). -/
def World.wf (world : World) : Prop :=
  ∀ recipe ∈ world.recipes, ∀ x ∈ recipe.rates, x.1.id < world.resources.length

instance (world : World) : Decidable world.wf :=
  inferInstanceAs (Decidable (∀ recipe ∈ world.recipes, ∀ x ∈ recipe.rates, _))

/-- Every rule of the problem names an id in range of the world. -/
def Problem.rulesWf (problem : Problem) (world : World) : Prop :=
  ∀ rule ∈ problem.rules, rule.var.inRange world

instance (problem : Problem) (world : World) : Decidable (problem.rulesWf world) :=
  inferInstanceAs (Decidable (∀ rule ∈ problem.rules, _))

/-! ### Reporting: Factory::net_resources (src/factory.rs lines 19-35) -/

/-- Placeholder recipe used only to type the out-of-range branch of list
indexing; Rust panics there, and the theorems assume ids in range. -/
def dummyRecipe : Recipe := ⟨"", [], []⟩

/-- Mirror of Factory::net_resources: one (netRate, contributions)
accumulator per world resource, initially (0, []); each factory entry walks
its recipe's rates and adds recipe_rate * resource_rate to that resource's
accumulator, appending (recipe id, product) to its contribution list. -/
def Factory.net_resources (factory : Factory) (world : World) : NetResources :=
  ⟨factory.recipes.foldl
    (fun resources x =>
      (world.recipes.getD x.1.id dummyRecipe).rates.foldl
        (fun resources y =>
          resources.modify
            (fun entry => (entry.1 + x.2 * y.2, entry.2 ++ [(x.1, x.2 * y.2)])) y.1.id)
        resources)
    (List.replicate world.resources.length (0, []))⟩

/-- Every recipe id of the factory is in range of the world. -/
def Factory.wf (factory : Factory) (world : World) : Prop :=
  ∀ x ∈ factory.recipes, x.1.id < world.recipes.length

instance (factory : Factory) (world : World) : Decidable (factory.wf world) :=
  inferInstanceAs (Decidable (∀ x ∈ factory.recipes, _))

/-! ### Loading: load_world (src/world.rs lines 112-164)

The file reading and JSON parsing steps live outside the core; the embedding
starts from the parsed WorldJson value, exactly the data the Rust loader has
after serde_json succeeds.  The IoError and JsonError variants of
LoadWorldError belong to those outer steps and are omitted. -/

/-- Mirror of RecipeJson in src/world.rs. -/
structure RecipeJson where
  name : String
  tags : List String
  per_minute : ℚ
  rates : List (String × ℚ)
deriving DecidableEq, Repr

/-- Mirror of WorldJson in src/world.rs. -/
structure WorldJson where
  resources : List String
  recipes : List RecipeJson
deriving DecidableEq, Repr

/-- Mirror of LoadWorldError::BadRecipeResource in src/world.rs (the io and
json variants belong to the out-of-scope file layer). -/
inductive LoadWorldError where
  | BadRecipeResource (recipe_name : String) (resource_name : String)
deriving DecidableEq, Repr

/-- Mirror of the rate-resolution loop of load_world (world.rs lines
147-158): each (resource_name, rate) entry is resolved against the world's
resource list and scaled by per_minute; the first unresolved name aborts the
whole load.  Name lookup only consults world.resources, which is fully
populated before any recipe is parsed, so resolution is against the fixed
resource list. -/
def resolveRates (world : World) (recipe_name : String) (per_minute : ℚ) :
    List (String × ℚ) → Except LoadWorldError (List (ResourceId × ℚ))
  | [] => .ok []
  | (resource_name, rate) :: rest =>
    match world.resource_id_of_name resource_name with
    | none => .error (.BadRecipeResource recipe_name resource_name)
    | some resource_id =>
      match resolveRates world recipe_name per_minute rest with
      | .error e => .error e
      | .ok tail => .ok ((resource_id, rate * per_minute) :: tail)

/-- Mirror of the recipe-parsing loop of load_world (world.rs lines
133-161): recipes are resolved in order, the first failure aborting. -/
def loadRecipes (world : World) : List RecipeJson → Except LoadWorldError (List Recipe)
  | [] => .ok []
  | rj :: rest =>
    match resolveRates world rj.name rj.per_minute rj.rates with
    | .error e => .error e
    | .ok rates =>
      match loadRecipes world rest with
      | .error e => .error e
      | .ok tail => .ok (⟨rj.name, rj.tags, rates⟩ :: tail)

/-- Mirror of load_world after JSON parsing (world.rs lines 123-163): push
every resource name, then parse every recipe against the resource list. -/
def load_world (world_json : WorldJson) : Except LoadWorldError World :=
  let world : World := ⟨world_json.resources.map Resource.mk, []⟩
  match loadRecipes world world_json.recipes with
  | .error e => .error e
  | .ok recipes => .ok ⟨world.resources, recipes⟩

/-! ### Loading: load_factory (src/factory.rs lines 76-101) -/

/-- Mirror of FactoryJson in src/factory.rs. -/
structure FactoryJson where
  recipes : List (String × ℚ)
deriving DecidableEq, Repr

/-- Mirror of LoadFactoryError::BadRecipeName in src/factory.rs (the io and
json variants belong to the out-of-scope file layer). -/
inductive LoadFactoryError where
  | BadRecipeName (recipe_name : String)
deriving DecidableEq, Repr

/-- Mirror of the entry loop of load_factory (factory.rs lines 92-98): each
(recipe_name, rate) pair has its name resolved to a RecipeId and is pushed
unchanged; no check of any kind is applied to the rate value. -/
def loadFactoryRecipes (world : World) :
    List (String × ℚ) → Except LoadFactoryError (List (RecipeId × ℚ))
  | [] => .ok []
  | (recipe_name, rate) :: rest =>
    match world.recipe_id_of_name recipe_name with
    | none => .error (.BadRecipeName recipe_name)
    | some recipe =>
      match loadFactoryRecipes world rest with
      | .error e => .error e
      | .ok tail => .ok ((recipe, rate) :: tail)

/-- Mirror of load_factory after JSON parsing. -/
def load_factory (world : World) (factory_json : FactoryJson) :
    Except LoadFactoryError Factory :=
  match loadFactoryRecipes world factory_json.recipes with
  | .error e => .error e
  | .ok recipes => .ok ⟨recipes⟩

/-! ### Specification-side definitions

These render the spec sentences the claims quote; the theorems compare them
with the builder definitions above. -/

/-- The conservation sum the spec describes for resource i: over every
(recipe, rate) pair in catalog order whose rates list mentions resource i,
the term (recipe variable handle, rate). -/
def conservationTerms (world : World) (i : Nat) : List (Nat × ℚ) :=
  world.recipes.enum.flatMap (fun x =>
    x.2.rates.filterMap (fun y =>
      if y.1.id = i then some (world.resources.length + x.1, y.2) else none))

/-- Number of rules that emit a comparison constraint (every rule whose
constraint is not Unconstrained). -/
def Problem.emittedRuleCount (problem : Problem) : Nat :=
  (problem.rules.filter (fun rule => rule.constraint != .Unconstrained)).length

/-- The contribution list the spec describes for resource i: walking the
factory entries in order and each entry's recipe rates in order, the pair
(recipe id, throughput * rate) for every rate naming resource i. -/
def contributionsSpec (factory : Factory) (world : World) (i : Nat) : List (RecipeId × ℚ) :=
  factory.recipes.flatMap (fun x =>
    (world.recipes.getD x.1.id dummyRecipe).rates.filterMap (fun y =>
      if y.1.id = i then some (x.1, x.2 * y.2) else none))

/-! ### Concrete example data (Scenario A of the spec), used by witnesses -/

/-- The Ore / Ingot / Smelt catalog of the spec's Scenario A. -/
def oreIngotWorld : World :=
  ⟨[⟨"Ore"⟩, ⟨"Ingot"⟩], [⟨"Smelt", [], [(⟨0⟩, -30), (⟨1⟩, 30)]⟩]⟩

/-- Scenario A problem: Ore net flow at least -60, maximize Ingot. -/
def oreIngotProblem : Problem :=
  ⟨[⟨.Resource ⟨0⟩, .Greater (-60)⟩], [(.Resource ⟨1⟩, 1)]⟩

/-- Scenario A solution: Smelt runs at throughput 2. -/
def oreIngotFactory : Factory := ⟨[(⟨0⟩, 2)]⟩

/-- A parsed world file that loads to the Scenario A catalog. -/
def smeltJson : WorldJson :=
  ⟨["Ore", "Ingot"], [⟨"Smelt", [], 1, [("Ore", -30), ("Ingot", 30)]⟩]⟩

instance {ε α : Type _} [DecidableEq ε] [DecidableEq α] : DecidableEq (Except ε α)
  | .error e1, .error e2 =>
    if h : e1 = e2 then isTrue (by rw [h])
    else isFalse (by intro hc; injection hc; exact h ‹_›)
  | .error _, .ok _ => isFalse (by intro hc; exact Except.noConfusion hc)
  | .ok _, .error _ => isFalse (by intro hc; exact Except.noConfusion hc)
  | .ok a1, .ok a2 =>
    if h : a1 = a2 then isTrue (by rw [h])
    else isFalse (by intro hc; injection hc; exact h ‹_›)

/-! ### Generic list lemmas -/

theorem foldl_foldl_flatMap {α β γ : Type _} (f : β → α → β) (g : γ → List α) :
    ∀ (l : List γ) (init : β),
      l.foldl (fun acc c => (g c).foldl f acc) init = (l.flatMap g).foldl f init
  | [], _ => rfl
  | c :: l, init => by
    simp only [List.foldl_cons, List.flatMap_cons, List.foldl_append]
    exact foldl_foldl_flatMap f g l _

/-- A fold of keyed updates, read back at one key: only the updates at that
key matter, applied in order to the initial entry. -/
theorem foldl_modify_getElem? {β γ : Type _} (upd : γ → β → γ) :
    ∀ (pushes : List (Nat × β)) (init : List γ) (k : Nat),
      (pushes.foldl (fun acc x => acc.modify (fun v => upd v x.2) x.1) init)[k]? =
        (init[k]?).map (fun v =>
          (pushes.filterMap (fun x => if x.1 = k then some x.2 else none)).foldl upd v)
  | [], init, k => by simp
  | (i, b) :: pushes, init, k => by
    rw [List.foldl_cons, foldl_modify_getElem? upd pushes _ k, List.filterMap_cons]
    by_cases h : i = k
    · subst h
      simp only [List.getElem?_modify_eq, if_pos rfl, Option.map_eq_map, Option.map_map]
      rfl
    · rw [List.getElem?_modify_ne (fun v => upd v b) init h, if_neg h]

theorem length_foldl_modify {β γ : Type _} (upd : γ → β → γ)
    (pushes : List (Nat × β)) (init : List γ) :
    (pushes.foldl (fun acc x => acc.modify (fun v => upd v x.2) x.1) init).length =
      init.length := by
  induction pushes generalizing init with
  | nil => rfl
  | cons p pushes ih => rw [List.foldl_cons, ih, List.length_modify]

theorem foldl_append_singleton {α : Type _} :
    ∀ (l : List α) (v : List α), l.foldl (fun acc b => acc ++ [b]) v = v ++ l
  | [], v => by simp
  | b :: l, v => by rw [List.foldl_cons, foldl_append_singleton l (v ++ [b])]; simp

theorem zip_self_eq_map {α : Type _} : ∀ l : List α, l.zip l = l.map (fun a => (a, a))
  | [] => rfl
  | a :: l => by rw [List.map_cons, List.zip_cons_cons, zip_self_eq_map l]

theorem enum_range (n : Nat) :
    (List.range n).enum = (List.range n).map (fun i => (i, i)) := by
  rw [List.enum_eq_zip_range, List.length_range, zip_self_eq_map]

theorem enum_range_map {α : Type _} (n : Nat) (f : Nat → α) :
    ((List.range n).map f).enum = (List.range n).map (fun i => (i, f i)) := by
  rw [List.enum_map, enum_range, List.map_map]
  rfl

theorem filterMap_if_eq_filter_map {α β : Type _} (p : α → Bool) (f : α → β) :
    ∀ l : List α,
      l.filterMap (fun a => if p a then some (f a) else none) = (l.filter p).map f
  | [] => rfl
  | a :: l => by
    by_cases h : p a <;>
      simp [List.filterMap_cons, List.filter_cons, h, filterMap_if_eq_filter_map p f l]

theorem foldl_preserve_length {α γ : Type _} {step : List α → γ → List α}
    (h : ∀ acc x, (step acc x).length = acc.length) :
    ∀ (l : List γ) (acc : List α), (l.foldl step acc).length = acc.length
  | [], _ => rfl
  | x :: l, acc => by
    rw [List.foldl_cons, foldl_preserve_length h l (step acc x), h acc x]

theorem foldl_preserve_pair_length {α β γ : Type _}
    {step : List α × List β → γ → List α × List β}
    (h : ∀ acc x, ((step acc x).1.length = acc.1.length ∧
      (step acc x).2.length = acc.2.length)) :
    ∀ (l : List γ) (acc : List α × List β),
      ((l.foldl step acc).1.length = acc.1.length ∧
        (l.foldl step acc).2.length = acc.2.length)
  | [], _ => ⟨rfl, rfl⟩
  | x :: l, acc => by
    rw [List.foldl_cons]
    exact ⟨(foldl_preserve_pair_length h l (step acc x)).1.trans (h acc x).1,
      (foldl_preserve_pair_length h l (step acc x)).2.trans (h acc x).2⟩

/-! ### Characterizations of the builder pieces -/

theorem objectiveCoefficients_length (problem : Problem) (world : World) :
    (problem.objectiveCoefficients world).1.length = world.resources.length ∧
    (problem.objectiveCoefficients world).2.length = world.recipes.length := by
  have h := @foldl_preserve_pair_length ℚ ℚ (VariableId × ℚ)
    (fun (coeffs : List ℚ × List ℚ) (x : VariableId × ℚ) =>
      match x.1 with
      | .Resource rid => (coeffs.1.set rid.id x.2, coeffs.2)
      | .Recipe rid => (coeffs.1, coeffs.2.set rid.id x.2))
    (fun acc x => by
      obtain ⟨v, c⟩ := x
      cases v <;> simp)
    problem.optimizations
    (List.replicate world.resources.length 0, List.replicate world.recipes.length 0)
  rw [Problem.objectiveCoefficients]
  exact ⟨h.1.trans (List.length_replicate ..), h.2.trans (List.length_replicate ..)⟩

/-- The nested push loop of resource_recipe_coefficients, flattened into a
single fold over the (bucket index, pushed pair) stream. -/
theorem rrc_eq_pushes (world : World) :
    world.resourceRecipeCoefficients =
      (world.recipes.enum.flatMap (fun x =>
          x.2.rates.map (fun y => (y.1.id, (world.resources.length + x.1, y.2))))).foldl
        (fun acc x => acc.modify (fun v => v ++ [x.2]) x.1)
        (List.replicate world.resources.length []) := by
  rw [World.resourceRecipeCoefficients,
    ← foldl_foldl_flatMap
      (fun (acc : List (List (Nat × ℚ))) (x : Nat × (Nat × ℚ)) =>
        acc.modify (fun v => v ++ [x.2]) x.1)
      (fun (x : Nat × Recipe) =>
        x.2.rates.map (fun y => (y.1.id, (world.resources.length + x.1, y.2))))]
  congr 1
  funext buckets x
  rw [List.foldl_map]

theorem resourceRecipeCoefficients_length (world : World) :
    world.resourceRecipeCoefficients.length = world.resources.length := by
  rw [rrc_eq_pushes]
  exact (length_foldl_modify (fun v b => v ++ [b]) _ _).trans (List.length_replicate ..)

theorem resourceRecipeCoefficients_getElem? (world : World) {k : Nat}
    (hk : k < world.resources.length) :
    world.resourceRecipeCoefficients[k]? = some (conservationTerms world k) := by
  rw [rrc_eq_pushes]
  refine Eq.trans (foldl_modify_getElem? (fun (v : List (Nat × ℚ)) b => v ++ [b]) _ _ k) ?_
  rw [List.getElem?_replicate_of_lt hk, Option.map_some']
  congr 1
  rw [foldl_append_singleton, List.nil_append, List.filterMap_flatMap]
  rw [conservationTerms]
  congr 1
  funext x
  rw [List.filterMap_map]
  rfl

theorem resourceRecipeCoefficients_eq_map (world : World) :
    world.resourceRecipeCoefficients =
      (List.range world.resources.length).map (conservationTerms world) := by
  apply List.ext_getElem?
  intro k
  by_cases hk : k < world.resources.length
  · rw [resourceRecipeCoefficients_getElem? world hk, List.getElem?_map,
      List.getElem?_range hk, Option.map_some']
  · have h1 : world.resources.length ≤ k := Nat.le_of_not_lt hk
    rw [List.getElem?_eq_none (by rw [resourceRecipeCoefficients_length]; exact h1),
      List.getElem?_eq_none (by simpa using h1)]

/-- Reading the default flag of resource k after the rule pass: it is the
initial flag and-ed with "no rule names resource k". -/
theorem resourceDefaults_aux (k : Nat) :
    ∀ (rules : List Rule) (flags : List Bool),
      (rules.foldl
        (fun flags rule =>
          match rule.var with
          | .Resource rid => flags.set rid.id false
          | .Recipe _ => flags) flags)[k]? =
      (flags[k]?).map
        (fun b => b && rules.all (fun rule => rule.var != .Resource ⟨k⟩))
  | [], flags => by simp
  | ⟨v, c⟩ :: rules, flags => by
    rw [List.foldl_cons, resourceDefaults_aux k rules _, List.all_cons]
    cases v with
    | Resource rid =>
      obtain ⟨i⟩ := rid
      by_cases hr : i = k
      · subst hr
        rw [List.getElem?_set_self']
        cases flags[i]? <;> simp
      · rw [List.getElem?_set_ne hr]
        have hb : (VariableId.Resource ⟨i⟩ != VariableId.Resource ⟨k⟩) = true := by
          simp only [bne_iff_ne, ne_eq, VariableId.Resource.injEq, ResourceId.mk.injEq]
          exact hr
        cases flags[k]? <;> simp [hb]
    | Recipe rid =>
      have hb : (VariableId.Recipe rid != VariableId.Resource ⟨k⟩) = true := rfl
      cases flags[k]? <;> simp [hb]

theorem resourceDefaults_eq_map (problem : Problem) (world : World) :
    problem.resourceDefaults world =
      (List.range world.resources.length).map
        (fun i => problem.rules.all (fun rule => rule.var != .Resource ⟨i⟩)) := by
  apply List.ext_getElem?
  intro k
  rw [Problem.resourceDefaults, resourceDefaults_aux k problem.rules _, List.getElem?_map]
  by_cases hk : k < world.resources.length
  · rw [List.getElem?_replicate_of_lt hk, List.getElem?_range hk, Option.map_some',
      Option.map_some', Bool.true_and]
  · have h1 : world.resources.length ≤ k := Nat.le_of_not_lt hk
    rw [List.getElem?_eq_none (by simpa using h1),
      List.getElem?_eq_none (by simpa using h1)]
    rfl

theorem length_filterMap_ruleConstraint (world : World) :
    ∀ rules : List Rule,
      (rules.filterMap (ruleConstraint world)).length =
        (rules.filter (fun rule => rule.constraint != .Unconstrained)).length
  | [] => rfl
  | ⟨v, c⟩ :: rules => by
    have ih := length_filterMap_ruleConstraint world rules
    cases c <;>
      simp only [List.filterMap_cons, ruleConstraint, List.filter_cons] <;>
      simp [ih]

/-- The constraint list of the built LP, written as its four segments. -/
theorem buildLp_constraints (problem : Problem) (world : World) :
    (problem.buildLp world).constraints =
      world.resourceRecipeCoefficients.enum.map
        (fun x => (⟨x.2 ++ [(x.1, -1)], .Eq, 0⟩ : LinearConstraint)) ++
      ((List.range world.recipes.length).map
        (fun j => (⟨[(world.resources.length + j, 1)], .Ge, 0⟩ : LinearConstraint)) ++
      (problem.rules.filterMap (ruleConstraint world) ++
      (problem.resourceDefaults world).enum.filterMap
        (fun x => if x.2 then some (⟨[(x.1, 1)], .Eq, 0⟩ : LinearConstraint) else none))) := by
  rw [Problem.buildLp]
  simp only [List.append_assoc]

theorem emitted_segment_length (problem : Problem) (world : World) :
    (problem.rules.filterMap (ruleConstraint world)).length = problem.emittedRuleCount := by
  rw [Problem.emittedRuleCount]
  exact length_filterMap_ruleConstraint world problem.rules

theorem conservation_segment_length (problem : Problem) (world : World) :
    (world.resourceRecipeCoefficients.enum.map
      (fun x => (⟨x.2 ++ [(x.1, -1)], .Eq, 0⟩ : LinearConstraint))).length =
      world.resources.length := by
  rw [List.length_map, List.enum_length, resourceRecipeCoefficients_length]

theorem conservation_segment (problem : Problem) (world : World) :
    (problem.buildLp world).constraints.take world.resources.length =
      (List.range world.resources.length).map
        (fun i => (⟨conservationTerms world i ++ [(i, -1)], .Eq, 0⟩ : LinearConstraint)) := by
  rw [buildLp_constraints, List.take_left' (conservation_segment_length problem world),
    resourceRecipeCoefficients_eq_map, enum_range_map, List.map_map]
  rfl

theorem nonneg_segment (problem : Problem) (world : World) :
    ((problem.buildLp world).constraints.drop world.resources.length).take
        world.recipes.length =
      (List.range world.recipes.length).map
        (fun j => (⟨[(world.resources.length + j, 1)], .Ge, 0⟩ : LinearConstraint)) := by
  rw [buildLp_constraints, List.drop_left' (conservation_segment_length problem world),
    List.take_left' (by rw [List.length_map, List.length_range])]

theorem user_rules_segment (problem : Problem) (world : World) :
    (((problem.buildLp world).constraints.drop world.resources.length).drop
        world.recipes.length).take problem.emittedRuleCount =
      problem.rules.filterMap (ruleConstraint world) := by
  rw [buildLp_constraints, List.drop_left' (conservation_segment_length problem world),
    List.drop_left' (by rw [List.length_map, List.length_range]),
    List.take_left' (emitted_segment_length problem world)]

theorem default_segment (problem : Problem) (world : World) :
    ((problem.buildLp world).constraints).drop
        (world.resources.length + world.recipes.length + problem.emittedRuleCount) =
      ((List.range world.resources.length).filter
        (fun i => problem.rules.all (fun rule => rule.var != .Resource ⟨i⟩))).map
        (fun i => (⟨[(i, 1)], .Eq, 0⟩ : LinearConstraint)) := by
  rw [← List.drop_drop, ← List.drop_drop, buildLp_constraints,
    List.drop_left' (conservation_segment_length problem world),
    List.drop_left' (by rw [List.length_map, List.length_range]),
    List.drop_left' (emitted_segment_length problem world),
    resourceDefaults_eq_map, enum_range_map, List.filterMap_map]
  exact filterMap_if_eq_filter_map _ _ _

/-! ### Claim theorems: the builder -/

/-- C1: Problem.solve emits an implicit equality constraint forcing a
resource's net-flow variable to exactly 0 if and only if no rule in the
Problem's rule list targets that resource's variable (an Unconstrained rule
on a resource emits no comparison but still exempts it); the defaults come
after all user rules, in Catalog resource order. -/
theorem solve_default_balance (world : World) (problem : Problem)
    (hr : problem.rulesWf world) :
    (problem.buildLp world).constraints.drop
        (world.resources.length + world.recipes.length + problem.emittedRuleCount) =
      ((List.range world.resources.length).filter
        (fun i => problem.rules.all (fun rule => rule.var != .Resource ⟨i⟩))).map
        (fun i => (⟨[(i, 1)], .Eq, 0⟩ : LinearConstraint)) :=
  default_segment problem world

theorem solve_default_balance_witness :
    oreIngotProblem.rulesWf oreIngotWorld ∧
      (oreIngotProblem.buildLp oreIngotWorld).constraints.drop
          (oreIngotWorld.resources.length + oreIngotWorld.recipes.length +
            oreIngotProblem.emittedRuleCount) =
        ((List.range oreIngotWorld.resources.length).filter
          (fun i => oreIngotProblem.rules.all (fun rule => rule.var != .Resource ⟨i⟩))).map
          (fun i => (⟨[(i, 1)], .Eq, 0⟩ : LinearConstraint)) :=
  ⟨by decide, solve_default_balance oreIngotWorld oreIngotProblem (by decide)⟩

/-- C2: the built linear program contains, for every resource in Catalog
order, exactly one equality constraint whose left side is the sum of
(recipe rate) terms over every (recipe, rate) pair mentioning that resource
followed by the resource variable with coefficient -1, compared Eq against
0, and these conservation constraints are the first constraints added. -/
theorem solve_conservation (world : World) (problem : Problem) (hw : world.wf) :
    (problem.buildLp world).constraints.take world.resources.length =
      (List.range world.resources.length).map
        (fun i => (⟨conservationTerms world i ++ [(i, -1)], .Eq, 0⟩ : LinearConstraint)) :=
  conservation_segment problem world

theorem solve_conservation_witness :
    oreIngotWorld.wf ∧
      (oreIngotProblem.buildLp oreIngotWorld).constraints.take
          oreIngotWorld.resources.length =
        (List.range oreIngotWorld.resources.length).map
          (fun i =>
            (⟨conservationTerms oreIngotWorld i ++ [(i, -1)], .Eq, 0⟩ : LinearConstraint)) :=
  ⟨by decide, solve_conservation oreIngotWorld oreIngotProblem (by decide)⟩

/-- C3: every rule is translated to exactly one comparison constraint on
the single variable it names - Less to Le, Equal to Eq, Greater to Ge
against the threshold - while Unconstrained emits nothing, and rules are
processed in the order they appear in the Problem's rule list. -/
theorem solve_user_rules (world : World) (problem : Problem)
    (hr : problem.rulesWf world) :
    (((problem.buildLp world).constraints.drop world.resources.length).drop
        world.recipes.length).take problem.emittedRuleCount =
      problem.rules.filterMap (fun rule =>
        match rule.constraint with
        | .Less threshold =>
            some (⟨[(world.varIndex rule.var, 1)], .Le, threshold⟩ : LinearConstraint)
        | .Equal threshold =>
            some (⟨[(world.varIndex rule.var, 1)], .Eq, threshold⟩ : LinearConstraint)
        | .Greater threshold =>
            some (⟨[(world.varIndex rule.var, 1)], .Ge, threshold⟩ : LinearConstraint)
        | .Unconstrained => none) :=
  user_rules_segment problem world

theorem solve_user_rules_witness :
    oreIngotProblem.rulesWf oreIngotWorld ∧
      (((oreIngotProblem.buildLp oreIngotWorld).constraints.drop
          oreIngotWorld.resources.length).drop oreIngotWorld.recipes.length).take
          oreIngotProblem.emittedRuleCount =
        oreIngotProblem.rules.filterMap (fun rule =>
          match rule.constraint with
          | .Less threshold =>
              some (⟨[(oreIngotWorld.varIndex rule.var, 1)], .Le, threshold⟩ : LinearConstraint)
          | .Equal threshold =>
              some (⟨[(oreIngotWorld.varIndex rule.var, 1)], .Eq, threshold⟩ : LinearConstraint)
          | .Greater threshold =>
              some (⟨[(oreIngotWorld.varIndex rule.var, 1)], .Ge, threshold⟩ : LinearConstraint)
          | .Unconstrained => none) :=
  ⟨by decide, solve_user_rules oreIngotWorld oreIngotProblem (by decide)⟩

/-- C6 counterexample: recipe throughput variables are NOT created with a
lower bound of 0; at a concrete catalog the recipe variable's bounds are
the unbounded range, so its minimum is not 0. -/
theorem solve_variable_bounds_counterexample :
    ¬ ∀ (world : World) (problem : Problem) (j : Nat), j < world.recipes.length →
        ((problem.buildLp world).vars.getD (world.resources.length + j)
          (0, unboundedRange)).2.min = some 0 := by
  intro h
  exact absurd (h oreIngotWorld ⟨[], []⟩ 0 (by decide)) (by decide)

/-- C6 amended: every variable of the built LP, resource and recipe alike,
is created with the unbounded range; the non-negativity of recipe
throughputs is instead enforced by a dedicated Ge-0 constraint per recipe
variable, placed directly after the conservation constraints. -/
theorem solve_variable_bounds (world : World) (problem : Problem) :
    (∀ v ∈ (problem.buildLp world).vars, v.2 = unboundedRange) ∧
    (problem.buildLp world).vars.length =
      world.resources.length + world.recipes.length ∧
    ((problem.buildLp world).constraints.drop world.resources.length).take
        world.recipes.length =
      (List.range world.recipes.length).map
        (fun j => (⟨[(world.resources.length + j, 1)], .Ge, 0⟩ : LinearConstraint)) := by
  refine ⟨?_, ?_, nonneg_segment problem world⟩
  · intro v hv
    simp only [Problem.buildLp, List.mem_append, List.mem_map] at hv
    rcases hv with ⟨c, _, rfl⟩ | ⟨c, _, rfl⟩ <;> rfl
  · simp only [Problem.buildLp, List.length_append, List.length_map]
    rw [(objectiveCoefficients_length problem world).1,
      (objectiveCoefficients_length problem world).2]

theorem solve_variable_bounds_witness :
    ((0 : ℚ), unboundedRange) ∈ (oreIngotProblem.buildLp oreIngotWorld).vars ∧
      ((0 : ℚ), unboundedRange).2 = unboundedRange :=
  ⟨by decide, (solve_variable_bounds oreIngotWorld oreIngotProblem).1 _ (by decide)⟩

/-! ### Claim theorems: solve outcome and extraction -/

/-- C4: Problem.solve returns an error exactly when the backend fails, the
error string being "Infeasible" for an infeasible program and "Unbounded"
for an unbounded one; on backend success it returns Ok with the extracted
Factory, and every error is one of the two strings. -/
theorem solve_error_behavior (world : World) (problem : Problem)
    (outcome : Except LpError (Nat → ℚ)) :
    ((problem.solveWith world outcome = .error "Infeasible" ↔
        outcome = .error .Infeasible) ∧
      (problem.solveWith world outcome = .error "Unbounded" ↔
        outcome = .error .Unbounded)) ∧
    (∀ assignment, outcome = .ok assignment →
      problem.solveWith world outcome = .ok (world.extractFactory assignment)) ∧
    (∀ e, problem.solveWith world outcome = .error e →
      e = "Infeasible" ∨ e = "Unbounded") := by
  cases outcome with
  | error e => cases e <;> refine ⟨⟨?_, ?_⟩, ?_, ?_⟩ <;> simp [Problem.solveWith]
  | ok assignment => refine ⟨⟨?_, ?_⟩, ?_, ?_⟩ <;> simp [Problem.solveWith]

theorem solve_error_behavior_witness :
    (Except.ok (fun _ => (0 : ℚ)) : Except LpError (Nat → ℚ)) = .ok (fun _ => (0 : ℚ)) ∧
      (⟨[], []⟩ : Problem).solveWith oreIngotWorld (.ok (fun _ => 0)) =
        .ok (oreIngotWorld.extractFactory (fun _ => 0)) :=
  ⟨rfl, (solve_error_behavior oreIngotWorld ⟨[], []⟩ _).2.1 _ rfl⟩

/-- C5: a Factory entry's rate is the solved recipe value scaled by one
million, rounded to the nearest integer and divided back; an entry is kept
exactly when the rounded magnitude is at least the f64 machine epsilon; and
entries appear in ascending RecipeId order. -/
theorem extract_factory_entries (world : World) (assignment : Nat → ℚ) :
    (∀ rid rate, ((rid, rate) ∈ (world.extractFactory assignment).recipes ↔
      rid.id < world.recipes.length ∧
      rate = roundedRate (assignment (world.resources.length + rid.id)) ∧
      f64Epsilon ≤ |rate|)) ∧
    (world.extractFactory assignment).recipes.Pairwise (fun a b => a.1.id < b.1.id) := by
  constructor
  · rintro ⟨i⟩ rate
    simp only [World.extractFactory, List.mem_filterMap, List.mem_range]
    constructor
    · rintro ⟨j, hj, hsome⟩
      by_cases hc : |roundedRate (assignment (world.resources.length + j))| < f64Epsilon
      · rw [if_pos hc] at hsome
        exact absurd hsome (by simp)
      · rw [if_neg hc] at hsome
        injection Option.some.inj hsome with h1 h2
        obtain rfl : j = i := congrArg RecipeId.id h1
        exact ⟨hj, h2.symm, h2 ▸ not_lt.mp hc⟩
    · rintro ⟨hlt, rfl, heps⟩
      refine ⟨i, hlt, ?_⟩
      rw [if_neg (not_lt.mpr heps)]
  · simp only [World.extractFactory]
    refine List.Pairwise.filterMap _ (fun a b hab c hc d hd => ?_)
      (List.pairwise_lt_range world.recipes.length)
    by_cases ha : |roundedRate (assignment (world.resources.length + a))| < f64Epsilon
    · rw [if_pos ha] at hc
      exact absurd hc (by simp)
    · by_cases hb : |roundedRate (assignment (world.resources.length + b))| < f64Epsilon
      · rw [if_pos hb] at hd
        exact absurd hd (by simp)
      · rw [if_neg ha] at hc
        rw [if_neg hb] at hd
        obtain rfl := Option.mem_some_iff.mp hc
        obtain rfl := Option.mem_some_iff.mp hd
        exact hab

/-! ### Characterization of Factory.net_resources -/

theorem foldl_accumulate {α : Type _} :
    ∀ (l : List (α × ℚ)) (v : ℚ × List (α × ℚ)),
      l.foldl (fun entry b => (entry.1 + b.2, entry.2 ++ [b])) v =
        (v.1 + (l.map Prod.snd).sum, v.2 ++ l)
  | [], v => by simp
  | b :: l, v => by
    rw [List.foldl_cons, foldl_accumulate l _]
    simp [add_assoc]

/-- The nested accumulation loop of net_resources, flattened into a single
fold over the (resource index, contribution) stream. -/
theorem net_resources_eq_pushes (factory : Factory) (world : World) :
    (factory.net_resources world).resources =
      (factory.recipes.flatMap (fun x =>
          (world.recipes.getD x.1.id dummyRecipe).rates.map
            (fun y => (y.1.id, (x.1, x.2 * y.2))))).foldl
        (fun acc p => acc.modify (fun entry => (entry.1 + p.2.2, entry.2 ++ [p.2])) p.1)
        (List.replicate world.resources.length (0, [])) := by
  have h0 : (factory.net_resources world).resources =
      factory.recipes.foldl
        (fun resources x =>
          (world.recipes.getD x.1.id dummyRecipe).rates.foldl
            (fun resources y =>
              resources.modify
                (fun entry => (entry.1 + x.2 * y.2, entry.2 ++ [(x.1, x.2 * y.2)])) y.1.id)
            resources)
        (List.replicate world.resources.length (0, [])) := rfl
  rw [h0,
    ← foldl_foldl_flatMap
      (fun (acc : List (ℚ × List (RecipeId × ℚ))) (p : Nat × (RecipeId × ℚ)) =>
        acc.modify (fun entry => (entry.1 + p.2.2, entry.2 ++ [p.2])) p.1)
      (fun (x : RecipeId × ℚ) =>
        (world.recipes.getD x.1.id dummyRecipe).rates.map
          (fun y => (y.1.id, (x.1, x.2 * y.2))))]
  congr 1
  funext resources x
  rw [List.foldl_map]

theorem net_resources_length (factory : Factory) (world : World) :
    (factory.net_resources world).resources.length = world.resources.length := by
  rw [net_resources_eq_pushes]
  exact (length_foldl_modify
    (fun (entry : ℚ × List (RecipeId × ℚ)) b => (entry.1 + b.2, entry.2 ++ [b])) _ _).trans
    (List.length_replicate ..)

theorem net_resources_getElem? (factory : Factory) (world : World) {k : Nat}
    (hk : k < world.resources.length) :
    (factory.net_resources world).resources[k]? =
      some (((contributionsSpec factory world k).map Prod.snd).sum,
        contributionsSpec factory world k) := by
  rw [net_resources_eq_pushes]
  refine Eq.trans (foldl_modify_getElem?
    (fun (entry : ℚ × List (RecipeId × ℚ)) b => (entry.1 + b.2, entry.2 ++ [b])) _ _ k) ?_
  rw [List.getElem?_replicate_of_lt hk, Option.map_some']
  congr 1
  rw [foldl_accumulate, List.filterMap_flatMap]
  have hc : (factory.recipes.flatMap (fun x =>
      ((world.recipes.getD x.1.id dummyRecipe).rates.map
        (fun y => (y.1.id, (x.1, x.2 * y.2)))).filterMap
        (fun p => if p.1 = k then some p.2 else none))) =
      contributionsSpec factory world k := by
    rw [contributionsSpec]
    congr 1
    funext x
    rw [List.filterMap_map]
    rfl
  rw [hc, zero_add, List.nil_append]

/-- C7: net_resources returns one accumulator per Catalog resource in
Catalog order; resource k's contribution list walks the Factory entries in
order appending (recipe id, throughput * rate) for every rate naming k, its
net rate is the sum of those products, and nothing is filtered out (a
resource with no contributions keeps net rate 0 and an empty list). -/
theorem net_resources_spec (factory : Factory) (world : World)
    (hf : factory.wf world) (hw : world.wf) :
    (factory.net_resources world).resources.length = world.resources.length ∧
    ∀ k, k < world.resources.length →
      (factory.net_resources world).resources[k]? =
        some (((contributionsSpec factory world k).map Prod.snd).sum,
          contributionsSpec factory world k) :=
  ⟨net_resources_length factory world, fun _ hk => net_resources_getElem? factory world hk⟩

theorem net_resources_spec_witness :
    (oreIngotFactory.wf oreIngotWorld ∧ oreIngotWorld.wf) ∧
      (oreIngotFactory.net_resources oreIngotWorld).resources.length =
        oreIngotWorld.resources.length ∧
      ∀ k, k < oreIngotWorld.resources.length →
        (oreIngotFactory.net_resources oreIngotWorld).resources[k]? =
          some (((contributionsSpec oreIngotFactory oreIngotWorld k).map Prod.snd).sum,
            contributionsSpec oreIngotFactory oreIngotWorld k) :=
  ⟨⟨by decide, by decide⟩,
    net_resources_spec oreIngotFactory oreIngotWorld (by decide) (by decide)⟩

/-! ### Characterization of the loaders -/

/-- The per-rate resolution relation of load_world: name resolved against
the world, raw rate scaled by per_minute. -/
def RateResolves (world : World) (per_minute : ℚ)
    (x : String × ℚ) (y : ResourceId × ℚ) : Prop :=
  world.resource_id_of_name x.1 = some y.1 ∧ y.2 = x.2 * per_minute

/-- The per-recipe resolution relation of load_world. -/
def RecipeResolves (world : World) (rj : RecipeJson) (recipe : Recipe) : Prop :=
  recipe.name = rj.name ∧ recipe.tags = rj.tags ∧
    List.Forall₂ (RateResolves world rj.per_minute) rj.rates recipe.rates

theorem resolveRates_ok (world : World) (recipe_name : String) (per_minute : ℚ) :
    ∀ {rates : List (String × ℚ)} {out : List (ResourceId × ℚ)},
      resolveRates world recipe_name per_minute rates = .ok out →
      List.Forall₂ (RateResolves world per_minute) rates out := by
  intro rates
  induction rates with
  | nil =>
    intro out h
    injection h with h
    subst h
    exact List.Forall₂.nil
  | cons p rest ih =>
    intro out h
    obtain ⟨s, q⟩ := p
    simp only [resolveRates] at h
    cases hl : world.resource_id_of_name s with
    | none =>
      simp only [hl] at h
      exact Except.noConfusion h
    | some rid =>
      simp only [hl] at h
      cases hr : resolveRates world recipe_name per_minute rest with
      | error e =>
        simp only [hr] at h
        exact Except.noConfusion h
      | ok tail =>
        simp only [hr] at h
        injection h with h
        subst h
        exact List.Forall₂.cons ⟨hl, rfl⟩ (ih hr)

theorem resolveRates_error (world : World) (recipe_name : String) (per_minute : ℚ) :
    ∀ {rates : List (String × ℚ)} {e : LoadWorldError},
      resolveRates world recipe_name per_minute rates = .error e →
      ∃ s, e = .BadRecipeResource recipe_name s ∧ s ∈ rates.map Prod.fst ∧
        world.resource_id_of_name s = none := by
  intro rates
  induction rates with
  | nil =>
    intro e h
    exact Except.noConfusion h
  | cons p rest ih =>
    intro e h
    obtain ⟨s, q⟩ := p
    simp only [resolveRates] at h
    cases hl : world.resource_id_of_name s with
    | none =>
      simp only [hl] at h
      injection h with h
      exact ⟨s, h.symm, List.mem_cons_self .., hl⟩
    | some rid =>
      simp only [hl] at h
      cases hr : resolveRates world recipe_name per_minute rest with
      | error e2 =>
        simp only [hr] at h
        injection h with h
        subst h
        obtain ⟨s2, he, hm, hn⟩ := ih hr
        exact ⟨s2, he, List.mem_cons_of_mem _ hm, hn⟩
      | ok tail =>
        simp only [hr] at h
        exact Except.noConfusion h

theorem resolveRates_ok_of_resolvable (world : World) (recipe_name : String)
    (per_minute : ℚ) :
    ∀ {rates : List (String × ℚ)},
      (∀ x ∈ rates, (world.resource_id_of_name x.1).isSome) →
      ∃ out, resolveRates world recipe_name per_minute rates = .ok out := by
  intro rates
  induction rates with
  | nil => intro _; exact ⟨[], rfl⟩
  | cons p rest ih =>
    intro h
    obtain ⟨s, q⟩ := p
    obtain ⟨rid, hl⟩ := Option.isSome_iff_exists.mp (h (s, q) (List.mem_cons_self ..))
    obtain ⟨tail, hr⟩ := ih (fun x hx => h x (List.mem_cons_of_mem _ hx))
    exact ⟨(rid, q * per_minute) :: tail, by simp only [resolveRates, hl, hr]⟩

theorem resolveRates_error_of_unresolved (world : World) (recipe_name : String)
    (per_minute : ℚ) :
    ∀ {rates : List (String × ℚ)},
      (∃ x ∈ rates, world.resource_id_of_name x.1 = none) →
      ∃ e, resolveRates world recipe_name per_minute rates = .error e := by
  intro rates
  induction rates with
  | nil => rintro ⟨x, hx, _⟩; exact absurd hx (List.not_mem_nil x)
  | cons p rest ih =>
    rintro ⟨x, hx, hnone⟩
    obtain ⟨s, q⟩ := p
    rcases List.mem_cons.mp hx with rfl | hx2
    · have hs : world.resource_id_of_name s = none := hnone
      exact ⟨.BadRecipeResource recipe_name s, by simp only [resolveRates, hs]⟩
    · cases hl : world.resource_id_of_name s with
      | none =>
        exact ⟨.BadRecipeResource recipe_name s, by simp only [resolveRates, hl]⟩
      | some rid =>
        obtain ⟨e, hr⟩ := ih ⟨x, hx2, hnone⟩
        exact ⟨e, by simp only [resolveRates, hl, hr]⟩

theorem loadRecipes_ok (world : World) :
    ∀ {rjs : List RecipeJson} {out : List Recipe},
      loadRecipes world rjs = .ok out →
      List.Forall₂ (RecipeResolves world) rjs out := by
  intro rjs
  induction rjs with
  | nil =>
    intro out h
    injection h with h
    subst h
    exact List.Forall₂.nil
  | cons rj rest ih =>
    intro out h
    simp only [loadRecipes] at h
    cases hr : resolveRates world rj.name rj.per_minute rj.rates with
    | error e =>
      simp only [hr] at h
      exact Except.noConfusion h
    | ok rates =>
      simp only [hr] at h
      cases ht : loadRecipes world rest with
      | error e =>
        simp only [ht] at h
        exact Except.noConfusion h
      | ok tail =>
        simp only [ht] at h
        injection h with h
        subst h
        exact List.Forall₂.cons ⟨rfl, rfl, resolveRates_ok world rj.name rj.per_minute hr⟩
          (ih ht)

theorem loadRecipes_error (world : World) :
    ∀ {rjs : List RecipeJson} {e : LoadWorldError},
      loadRecipes world rjs = .error e →
      ∃ rj ∈ rjs, ∃ s, e = .BadRecipeResource rj.name s ∧ s ∈ rj.rates.map Prod.fst ∧
        world.resource_id_of_name s = none := by
  intro rjs
  induction rjs with
  | nil =>
    intro e h
    exact Except.noConfusion h
  | cons rj rest ih =>
    intro e h
    simp only [loadRecipes] at h
    cases hr : resolveRates world rj.name rj.per_minute rj.rates with
    | error e2 =>
      simp only [hr] at h
      injection h with h
      subst h
      obtain ⟨s, he, hm, hn⟩ := resolveRates_error world rj.name rj.per_minute hr
      exact ⟨rj, List.mem_cons_self .., s, he, hm, hn⟩
    | ok rates =>
      simp only [hr] at h
      cases ht : loadRecipes world rest with
      | error e2 =>
        simp only [ht] at h
        injection h with h
        subst h
        obtain ⟨rj2, hm2, s, he, hm, hn⟩ := ih ht
        exact ⟨rj2, List.mem_cons_of_mem _ hm2, s, he, hm, hn⟩
      | ok tail =>
        simp only [ht] at h
        exact Except.noConfusion h

theorem loadRecipes_ok_of_resolvable (world : World) :
    ∀ {rjs : List RecipeJson},
      (∀ rj ∈ rjs, ∀ x ∈ rj.rates, (world.resource_id_of_name x.1).isSome) →
      ∃ out, loadRecipes world rjs = .ok out := by
  intro rjs
  induction rjs with
  | nil => intro _; exact ⟨[], rfl⟩
  | cons rj rest ih =>
    intro h
    obtain ⟨rates, hr⟩ := resolveRates_ok_of_resolvable world rj.name rj.per_minute
      (h rj (List.mem_cons_self ..))
    obtain ⟨tail, ht⟩ := ih (fun r hrm => h r (List.mem_cons_of_mem _ hrm))
    exact ⟨⟨rj.name, rj.tags, rates⟩ :: tail, by simp only [loadRecipes, hr, ht]⟩

theorem loadRecipes_error_of_unresolved (world : World) :
    ∀ {rjs : List RecipeJson},
      (∃ rj ∈ rjs, ∃ x ∈ rj.rates, world.resource_id_of_name x.1 = none) →
      ∃ e, loadRecipes world rjs = .error e := by
  intro rjs
  induction rjs with
  | nil => rintro ⟨rj, hm, _⟩; exact absurd hm (List.not_mem_nil rj)
  | cons rj rest ih =>
    rintro ⟨rj2, hm, hx⟩
    rcases List.mem_cons.mp hm with rfl | hm2
    · obtain ⟨e, hr⟩ := resolveRates_error_of_unresolved world rj2.name rj2.per_minute hx
      exact ⟨e, by simp only [loadRecipes, hr]⟩
    · cases hr : resolveRates world rj.name rj.per_minute rj.rates with
      | error e => exact ⟨e, by simp only [loadRecipes, hr]⟩
      | ok rates =>
        obtain ⟨e, ht⟩ := ih ⟨rj2, hm2, hx⟩
        exact ⟨e, by simp only [loadRecipes, hr, ht]⟩

/-- Resolution against the freshly pushed resource list is membership of the
name in the raw resource name list. -/
theorem resource_id_of_name_none_iff (names : List String) (s : String) :
    (⟨names.map Resource.mk, []⟩ : World).resource_id_of_name s = none ↔ s ∉ names := by
  rw [World.resource_id_of_name, Option.map_eq_none', List.findIdx?_eq_none_iff]
  constructor
  · intro h hm
    have := h ⟨s⟩ (List.mem_map_of_mem Resource.mk hm)
    simp at this
  · intro h r hr
    obtain ⟨n, hn, rfl⟩ := List.mem_map.mp hr
    simp only [beq_eq_false_iff_ne, ne_eq]
    intro he
    exact h (he ▸ hn)

theorem resource_id_of_name_isSome (names : List String) {s : String} (hm : s ∈ names) :
    ((⟨names.map Resource.mk, []⟩ : World).resource_id_of_name s).isSome := by
  rw [World.resource_id_of_name,
    List.findIdx?_eq_some_of_exists ⟨⟨s⟩, List.mem_map_of_mem Resource.mk hm, by simp⟩]
  rfl

theorem load_world_eq_ok (j : WorldJson) {out : List Recipe}
    (h : loadRecipes ⟨j.resources.map Resource.mk, []⟩ j.recipes = .ok out) :
    load_world j = .ok ⟨j.resources.map Resource.mk, out⟩ := by
  simp only [load_world, h]

theorem load_world_eq_error (j : WorldJson) {e : LoadWorldError}
    (h : loadRecipes ⟨j.resources.map Resource.mk, []⟩ j.recipes = .error e) :
    load_world j = .error e := by
  simp only [load_world, h]

/-! ### Claim theorems: the loaders -/

/-- C8: load_world (after JSON parsing) fails with a BadRecipeResource
error naming an offending recipe and its unresolved resource name exactly
when some recipe rate references a name absent from the declared resources;
on success every stored rate is the raw rate multiplied by the recipe's
per_minute, with the name resolved to its ResourceId. -/
theorem load_world_spec (j : WorldJson) :
    ((∃ e, load_world j = .error e) ↔
      ∃ rj ∈ j.recipes, ∃ x ∈ rj.rates, x.1 ∉ j.resources) ∧
    (∀ rn sn, load_world j = .error (.BadRecipeResource rn sn) →
      ∃ rj ∈ j.recipes, rj.name = rn ∧ sn ∈ rj.rates.map Prod.fst ∧ sn ∉ j.resources) ∧
    (∀ w, load_world j = .ok w →
      w.resources = j.resources.map Resource.mk ∧
      List.Forall₂ (RecipeResolves ⟨j.resources.map Resource.mk, []⟩)
        j.recipes w.recipes) := by
  refine ⟨⟨?_, ?_⟩, ?_, ?_⟩
  · rintro ⟨e, he⟩
    cases h : loadRecipes ⟨j.resources.map Resource.mk, []⟩ j.recipes with
    | error e2 =>
      obtain ⟨rj, hm, s, _, hsm, hnone⟩ := loadRecipes_error _ h
      obtain ⟨x, hx, rfl⟩ := List.mem_map.mp hsm
      exact ⟨rj, hm, x, hx, (resource_id_of_name_none_iff j.resources x.1).mp hnone⟩
    | ok out =>
      rw [load_world_eq_ok j h] at he
      exact Except.noConfusion he
  · rintro ⟨rj, hm, x, hx, hnotin⟩
    obtain ⟨e, he⟩ := loadRecipes_error_of_unresolved _
      ⟨rj, hm, x, hx, (resource_id_of_name_none_iff j.resources x.1).mpr hnotin⟩
    exact ⟨e, load_world_eq_error j he⟩
  · intro rn sn h
    cases hl : loadRecipes ⟨j.resources.map Resource.mk, []⟩ j.recipes with
    | error e2 =>
      rw [load_world_eq_error j hl] at h
      injection h with h
      subst h
      obtain ⟨rj, hm, s, he, hsm, hnone⟩ := loadRecipes_error _ hl
      injection he with h1 h2
      subst h1
      subst h2
      exact ⟨rj, hm, rfl, hsm, (resource_id_of_name_none_iff j.resources sn).mp hnone⟩
    | ok out =>
      rw [load_world_eq_ok j hl] at h
      exact Except.noConfusion h
  · intro w h
    cases hl : loadRecipes ⟨j.resources.map Resource.mk, []⟩ j.recipes with
    | error e2 =>
      rw [load_world_eq_error j hl] at h
      exact Except.noConfusion h
    | ok out =>
      rw [load_world_eq_ok j hl] at h
      injection h with h
      subst h
      exact ⟨rfl, loadRecipes_ok _ hl⟩

theorem load_world_spec_witness :
    load_world smeltJson = .ok oreIngotWorld ∧
      (oreIngotWorld.resources = smeltJson.resources.map Resource.mk ∧
        List.Forall₂ (RecipeResolves ⟨smeltJson.resources.map Resource.mk, []⟩)
          smeltJson.recipes oreIngotWorld.recipes) :=
  ⟨by with_unfolding_all decide,
    (load_world_spec smeltJson).2.2 oreIngotWorld (by with_unfolding_all decide)⟩

/-- C9 counterexample: a parsed input whose resource name list repeats a
name loads successfully instead of failing with an error. -/
theorem loader_uniqueness_counterexample :
    load_world ⟨["A", "A"], []⟩ = .ok ⟨[⟨"A"⟩, ⟨"A"⟩], []⟩ ∧
      ¬ (["A", "A"] : List String).Nodup :=
  ⟨by decide, by decide⟩

/-- C9 amended: the loader enforces no name uniqueness; any parsed input
whose recipe rate names all appear among the declared resource names loads
successfully, the Catalog keeping the input resource names verbatim,
duplicates included. -/
theorem loader_accepts_duplicates (j : WorldJson)
    (h : ∀ rj ∈ j.recipes, ∀ x ∈ rj.rates, x.1 ∈ j.resources) :
    ∃ w, load_world j = .ok w ∧ w.resources = j.resources.map Resource.mk := by
  obtain ⟨out, hout⟩ := loadRecipes_ok_of_resolvable _
    (fun rj hrj x hx => resource_id_of_name_isSome j.resources (h rj hrj x hx))
  exact ⟨⟨j.resources.map Resource.mk, out⟩, load_world_eq_ok j hout, rfl⟩

theorem loader_accepts_duplicates_witness :
    (∀ rj ∈ (⟨["A", "A"], []⟩ : WorldJson).recipes, ∀ x ∈ rj.rates,
        x.1 ∈ (⟨["A", "A"], []⟩ : WorldJson).resources) ∧
      ∃ w, load_world ⟨["A", "A"], []⟩ = .ok w ∧
        w.resources = (⟨["A", "A"], []⟩ : WorldJson).resources.map Resource.mk :=
  ⟨by decide, loader_accepts_duplicates ⟨["A", "A"], []⟩ (by decide)⟩

theorem loadFactoryRecipes_ok (world : World) :
    ∀ {entries : List (String × ℚ)} {out : List (RecipeId × ℚ)},
      loadFactoryRecipes world entries = .ok out →
      List.Forall₂ (fun (x : String × ℚ) (y : RecipeId × ℚ) =>
        world.recipe_id_of_name x.1 = some y.1 ∧ y.2 = x.2) entries out := by
  intro entries
  induction entries with
  | nil =>
    intro out h
    injection h with h
    subst h
    exact List.Forall₂.nil
  | cons p rest ih =>
    intro out h
    obtain ⟨s, q⟩ := p
    simp only [loadFactoryRecipes] at h
    cases hl : world.recipe_id_of_name s with
    | none =>
      simp only [hl] at h
      exact Except.noConfusion h
    | some rid =>
      simp only [hl] at h
      cases hr : loadFactoryRecipes world rest with
      | error e =>
        simp only [hr] at h
        exact Except.noConfusion h
      | ok tail =>
        simp only [hr] at h
        injection h with h
        subst h
        exact List.Forall₂.cons ⟨hl, rfl⟩ (ih hr)

theorem loadFactoryRecipes_ok_of_resolvable (world : World) :
    ∀ {entries : List (String × ℚ)},
      (∀ x ∈ entries, (world.recipe_id_of_name x.1).isSome) →
      ∃ out, loadFactoryRecipes world entries = .ok out := by
  intro entries
  induction entries with
  | nil => intro _; exact ⟨[], rfl⟩
  | cons p rest ih =>
    intro h
    obtain ⟨s, q⟩ := p
    obtain ⟨rid, hl⟩ := Option.isSome_iff_exists.mp (h (s, q) (List.mem_cons_self ..))
    obtain ⟨tail, hr⟩ := ih (fun x hx => h x (List.mem_cons_of_mem _ hx))
    exact ⟨(rid, q) :: tail, by simp only [loadFactoryRecipes, hl, hr]⟩

/-- C10: load_factory applies no validation to rate values; whenever every
recipe name resolves it returns exactly the listed (RecipeId, rate) pairs
in file order, with each rate passed through unchanged - negative rates
and rates that are not multiples of 1e-6 included. -/
theorem load_factory_no_validation (world : World) (j : FactoryJson)
    (h : ∀ x ∈ j.recipes, (world.recipe_id_of_name x.1).isSome) :
    ∃ f, load_factory world j = .ok f ∧
      List.Forall₂ (fun (x : String × ℚ) (y : RecipeId × ℚ) =>
        world.recipe_id_of_name x.1 = some y.1 ∧ y.2 = x.2) j.recipes f.recipes := by
  obtain ⟨out, hout⟩ := loadFactoryRecipes_ok_of_resolvable world h
  exact ⟨⟨out⟩, by simp only [load_factory, hout], loadFactoryRecipes_ok world hout⟩

theorem load_factory_no_validation_witness :
    (∀ x ∈ (⟨[("Smelt", -1 / 3)]⟩ : FactoryJson).recipes,
        (oreIngotWorld.recipe_id_of_name x.1).isSome) ∧
      ∃ f, load_factory oreIngotWorld ⟨[("Smelt", -1 / 3)]⟩ = .ok f ∧
        List.Forall₂ (fun (x : String × ℚ) (y : RecipeId × ℚ) =>
          oreIngotWorld.recipe_id_of_name x.1 = some y.1 ∧ y.2 = x.2)
          (⟨[("Smelt", -1 / 3)]⟩ : FactoryJson).recipes f.recipes :=
  ⟨by decide, load_factory_no_validation oreIngotWorld ⟨[("Smelt", -1 / 3)]⟩ (by decide)⟩

end Satisfactory
